import Mathlib

/-!
Verification development for the `terratensor/vocab` repository.

The program builds a token-frequency vocabulary (a Go `map[string]int`)
from a directory of files, and post-processes persisted vocabularies
(load, merge, normalize, save).  This file gives a shallow embedding of
the data model and the operations of `internal/tokenizer/tokenizer.go`,
`internal/processor` and `cmd/vocab/main.go`, and proves properties
about them.

Modelling conventions:
* Go strings are lists of characters (`Str`), one element per rune,
  matching how the source iterates over strings.
* A Go `map[string]int` is an association list operated on only through
  the map primitives below; `m[k] += c` is `addCount`, `m[k] = c` is
  `setCount`, reading a missing key yields `0` (`getCount`).
  Iteration order over a Go map is unspecified, so properties about map
  contents are stated through `getCount` and `keys`, never through the
  concrete list order.
* Go `int` is the unbounded `Int` (64-bit overflow is out of scope).
* External collaborators (the `segment` tokenizer and the `unicode`
  classification and case tables) enter as parameters, bundled in
  `Externals`.
-/

set_option autoImplicit false

namespace Vocab

/-- A Go string, one list element per rune. -/
abbrev Str := List Char

/-- One entry of a Go `map[string]int`: token and count. -/
abbrev Entry := Str × Int

/-- A Go `map[string]int`, as an association list built by map writes. -/
abbrev Vocabulary := List Entry

/-- Reading `m[t]` from a Go map: the stored count, or `0` when absent. -/
def getCount (v : Vocabulary) (t : Str) : Int :=
  match v with
  | [] => 0
  | e :: rest => if e.1 = t then e.2 else getCount rest t

/-- The Go statement `m[t] += c`: update in place, or insert. -/
def addCount (v : Vocabulary) (t : Str) (c : Int) : Vocabulary :=
  match v with
  | [] => [(t, c)]
  | e :: rest => if e.1 = t then (e.1, e.2 + c) :: rest else e :: addCount rest t c

/-- The Go statement `m[t] = c`: overwrite, or insert. -/
def setCount (v : Vocabulary) (t : Str) (c : Int) : Vocabulary :=
  match v with
  | [] => [(t, c)]
  | e :: rest => if e.1 = t then (e.1, c) :: rest else e :: setCount rest t c

/-- The merge loop `for token, count := range src { dst[token] += count }`
from `MergeVocabularies` and from the worker merge in `ProcessFiles`. -/
def mergeInto (dst src : Vocabulary) : Vocabulary :=
  src.foldl (fun acc e => addCount acc e.1 e.2) dst

/-- Accumulation of a list of entries into a fresh map, one `m[t] += c`
per entry. -/
def buildFrom (l : List Entry) : Vocabulary := mergeInto [] l

/-- The key set of the map, in list order. -/
def keys (v : Vocabulary) : List Str := v.map Prod.fst

/-- Invariant of every association list that denotes a Go map: keys are
pairwise distinct. -/
abbrev NodupKeys (v : Vocabulary) : Prop := (keys v).Nodup

/-- Total count contributed to token `t` by the entries of `l`. -/
def sumCounts (l : List Entry) (t : Str) : Int :=
  ((l.filter (fun e => e.1 = t)).map Prod.snd).sum

/-- Merging a list of partial vocabularies into an accumulator, in list
order: the accumulation performed by the workers of `ProcessFiles` under
the shared-vocabulary lock, for one interleaving. -/
def mergeAll (ps : List Vocabulary) (init : Vocabulary) : Vocabulary :=
  ps.foldl mergeInto init

/-! ### Decimal rendering and scanning (`fmt` `%d`) -/

/-- The character of one decimal digit. -/
def digitChar (d : Nat) : Char := Char.ofNat (48 + d)

/-- Decimal digits of a natural number, most significant first: the output
of the `fmt` verb `%d` for a non-negative value. -/
def natDigits (n : Nat) : List Char :=
  if h : n < 10 then [digitChar n]
  else natDigits (n / 10) ++ [digitChar (n % 10)]
termination_by n
decreasing_by exact Nat.div_lt_self (by omega) (by omega)

/-- The text `fmt.Sprintf` produces for an `int` under the verb `%d`. -/
def decRepr (c : Int) : Str :=
  if c < 0 then '-' :: natDigits c.natAbs else natDigits c.natAbs

/-- Value of a run of decimal digit characters. -/
def digitsVal (ds : List Char) : Nat :=
  ds.foldl (fun a c => 10 * a + (c.toNat - 48)) 0

/-- Model of `fmt.Sscanf(s, "%d", &count)` followed by reading `count`,
where `count` was initialised to `0`: skip leading whitespace, read an
optional sign, then the maximal run of decimal digits.  When that run is
empty the scan fails, the error is discarded by the source, and `count`
keeps its initial value `0`. -/
def sscanfD (s : Str) : Int :=
  let cs := s.dropWhile (fun c => c.isWhitespace)
  let neg := cs.head? == some '-'
  let cs2 := if cs.head? == some '-' || cs.head? == some '+' then cs.tail else cs
  let ds := cs2.takeWhile (fun c => c.isDigit)
  if ds.isEmpty then 0
  else if neg then -(digitsVal ds : Int) else (digitsVal ds : Int)

/-! ### Splitting into fields and lines -/

/-- Model of `strings.Split(s, sep)` for a one-character separator; also
the newline splitting underlying `bufio.ScanLines`. -/
def splitOnChar (sep : Char) (s : Str) : List Str :=
  match s with
  | [] => [[]]
  | c :: cs =>
    if c = sep then [] :: splitOnChar sep cs
    else
      match splitOnChar sep cs with
      | [] => [[c]]
      | p :: ps => (c :: p) :: ps

/-- The trailing carriage-return stripping performed by `bufio.ScanLines`. -/
def dropCR (l : Str) : Str :=
  if l.getLast? == some '\r' then l.dropLast else l

/-- A trailing newline in the input does not yield a final empty line from
`bufio.Scanner`. -/
def trimTrailingEmpty (parts : List Str) : List Str :=
  if parts.getLast? == some ([] : Str) then parts.dropLast else parts

/-- The sequence of lines `bufio.Scanner` (with `bufio.ScanLines`) yields
on `content`. -/
def scanLines (content : Str) : List Str :=
  (trimTrailingEmpty (splitOnChar '\n' content)).map dropCR

/-! ### External collaborators -/

/-- The external collaborators the tokenizer package calls per rune or per
line: the `unicode` case and classification tables and the `segment`
tokenizer.  They enter the model as parameters. -/
structure Externals where
  lowerRune : Char → Char
  isPunctRune : Char → Bool
  isSymbolRune : Char → Bool
  tokenize : Str → List Str

/-- `strings.ToLower`: the rune-level lower-case table applied to every
rune. -/
def toLowerStr (E : Externals) (s : Str) : Str := s.map E.lowerRune

/-- `isPunctuation` from the source: true when every rune classifies as
punctuation or symbol; vacuously true for the empty token. -/
def isPunctuation (E : Externals) (token : Str) : Bool :=
  token.all (fun r => E.isPunctRune r || E.isSymbolRune r)

/-! ### Vocabulary post-processing (`LoadVocabulary`, `MergeVocabularies`,
`ProcessVocabulary`, `SaveVocabulary`) -/

/-- The UTF-8 byte length of a Go string (Go counts scanner buffer
space in bytes). -/
def strBytes (l : Str) : Nat := (l.map (fun c => c.utf8Size)).sum

/-- `bufio.MaxScanTokenSize`: the buffer limit of a default
`bufio.Scanner`, 64 KiB.  `LoadVocabulary` uses the default scanner, so
a line segment of at least this many bytes (measured without its
terminating newline) overflows the buffer and the scan stops with
`bufio.ErrTooLong`. -/
def maxScanTokenSize : Nat := 65536

/-- One newline-delimited segment of the input overflows the default
scanner buffer. -/
def lineTooLong (l : Str) : Bool := decide (maxScanTokenSize ≤ strBytes l)

/-- The content-determined scan failure of `LoadVocabulary`: the default
`bufio.Scanner` reports `ErrTooLong` exactly when some newline-delimited
segment of the content does not fit its buffer. -/
def scannerErrTooLong (content : Str) : Bool :=
  (splitOnChar '\n' content).any lineTooLong

/-- One vocabulary file as `LoadVocabulary` sees it: whether `os.Open`
succeeds, the byte content, and whether the underlying device reads
succeed (content-determined scan failures are derived from the content
itself by `scannerErrTooLong`). -/
structure VFile where
  openOk : Bool
  content : Str
  readOk : Bool
deriving DecidableEq

/-- The body of the scan loop of `LoadVocabulary` for one line: split on
single spaces; skip the line unless that yields exactly two fields;
otherwise assign (not add) the scanned count to the token. -/
def loadLine (v : Vocabulary) (line : Str) : Vocabulary :=
  match splitOnChar ' ' line with
  | [token, cnt] => setCount v token (sscanfD cnt)
  | _ => v

/-- The scan loop of `LoadVocabulary` over all lines. -/
def loadLines (lines : List Str) : Vocabulary :=
  lines.foldl loadLine []

/-- `LoadVocabulary`: fails when the file cannot be opened or when the
scanner reports an error at the end of the loop - either a device read
failure or `ErrTooLong` for a line exceeding the 64 KiB buffer of the
default scanner. -/
def loadVocabulary (f : VFile) : Except Str Vocabulary :=
  if !f.openOk then .error ("error opening vocabulary file".toList)
  else if scannerErrTooLong f.content || !f.readOk then
    .error ("error reading vocabulary file".toList)
  else .ok (loadLines (scanLines f.content))

/-- A file the scan loop of `LoadVocabulary` completes on: it opens, no
line overflows the scanner buffer, and the device reads succeed. -/
def readable (f : VFile) : Bool :=
  f.openOk && !scannerErrTooLong f.content && f.readOk

/-- The loop of `MergeVocabularies`: load each file in turn, failing fast,
and add every loaded entry into the accumulator with `+=`. -/
def mergeVocabulariesAux (acc : Vocabulary) : List VFile → Except Str Vocabulary
  | [] => .ok acc
  | f :: fs =>
    match loadVocabulary f with
    | .error e => .error e
    | .ok v => mergeVocabulariesAux (mergeInto acc v) fs

/-- `MergeVocabularies` over a list of files. -/
def mergeVocabularies (files : List VFile) : Except Str Vocabulary :=
  mergeVocabulariesAux [] files

/-- The entry stream of the `ProcessVocabulary` loop: optional case fold
of each token, then the optional punctuation filter. -/
def pvEntries (E : Externals) (low filt : Bool) (v : Vocabulary) : List Entry :=
  (v.map (fun e => (if low then toLowerStr E e.1 else e.1, e.2))).filter
    (fun e => !(filt && isPunctuation E e.1))

/-- `ProcessVocabulary`: rebuild the vocabulary from the transformed entry
stream with `processedVocab[token] += count`. -/
def processVocabulary (E : Externals) (low filt : Bool) (v : Vocabulary) : Vocabulary :=
  buildFrom (pvEntries E low filt v)

/-- The Go `sort.Slice` Less function for `sortType == "freq"` read as the
pairwise order of the sorted output: a later entry never has a strictly
larger count. -/
def rFreq (a b : Entry) : Prop := b.2 ≤ a.2

/-- The Go `sort.Slice` Less function for `sortType == "alpha"` read as
the pairwise order of the sorted output: tokens ascend in the code-point
lexicographic order (Go compares the UTF-8 bytes, which orders strings
exactly by code points). -/
def rAlpha (a b : Entry) : Prop := a.1 ≤ b.1

instance : DecidableRel rFreq := fun a b => inferInstanceAs (Decidable (b.2 ≤ a.2))

instance : DecidableRel rAlpha := fun a b => inferInstanceAs (Decidable (a.1 ≤ b.1))

instance : IsTotal Entry rFreq := ⟨fun a b => le_total b.2 a.2⟩

instance : IsTrans Entry rFreq := ⟨fun _ _ _ h1 h2 => le_trans h2 h1⟩

instance : IsTotal Entry rAlpha := ⟨fun a b => le_total a.1 b.1⟩

instance : IsTrans Entry rAlpha := ⟨fun _ _ _ h1 h2 => le_trans h1 h2⟩

/-- The `sort.Slice` calls of `SaveVocabulary`: `sort.Slice` returns some
permutation of the slice that is pairwise ordered for the Less function;
insertion sort is one such permutation.  An unrecognized non-empty
`sortType` matches no switch case and leaves the slice unsorted. -/
def sortSlice (sortType : Str) (l : List Entry) : List Entry :=
  if sortType = "freq".toList then List.insertionSort rFreq l
  else if sortType = "alpha".toList then List.insertionSort rAlpha l
  else l

/-- The body of one written line of `SaveVocabulary`: token, one space,
decimal count. -/
def entryBody (e : Entry) : Str :=
  e.1 ++ ' ' :: decRepr e.2

/-- One written line of `SaveVocabulary`: `fmt.Sprintf("%s %d\n", token,
count)`. -/
def entryLine (e : Entry) : Str :=
  entryBody e ++ ['\n']

/-- `SaveVocabulary`: fails exactly when the output file cannot be
created; with empty `sortType` the entries are written in iteration
order (the list order of the model), otherwise in sorted order.  The
result is the list of written lines; `WriteString` errors are ignored by
the source, so writing never fails. -/
def saveVocabulary (createOk : Bool) (v : Vocabulary) (sortType : Str) :
    Except Str (List Str) :=
  if !createOk then .error ("error creating file".toList)
  else if sortType = [] then .ok (v.map entryLine)
  else .ok ((sortSlice sortType v).map entryLine)

/-- The byte content of the file `SaveVocabulary` wrote. -/
def savedContent (lines : List Str) : Str := lines.flatten

/-! ### The format resolver (`internal/processor`) -/

/-- The extractor variants `NewProcessor` can return. -/
inductive FileProc where
  | text : FileProc
  | pdf : FileProc
  | docx : FileProc
  | gzip : FileProc → FileProc
deriving DecidableEq, Repr

/-- Scan of `filepath.Ext` over the reversed path: walk backwards; a dot
ends the scan with the suffix from the dot on, a path separator or the
start of the string ends it with the empty extension. -/
def pathExtAux : List Char → List Char → Str
  | [], _ => []
  | c :: cs, acc =>
    if c = '/' then []
    else if c = '.' then '.' :: acc
    else pathExtAux cs (c :: acc)

/-- `filepath.Ext`: the suffix of the final path element from its final
dot, empty when there is none. -/
def pathExt (p : Str) : Str := pathExtAux p.reverse []

/-- `filepath.Base`: the last element of the path, with trailing slashes
removed; `"."` for the empty path and `"/"` for an all-slash path. -/
def pathBase (p : Str) : Str :=
  if p = [] then ['.']
  else
    let q := (p.reverse.dropWhile (fun c => c == '/')).reverse
    if q = [] then ['/']
    else (q.reverse.takeWhile (fun c => c != '/')).reverse

/-- `strings.TrimSuffix`. -/
def trimSuffix (s suffix : Str) : Str :=
  if suffix.isSuffixOf s then s.take (s.length - suffix.length) else s

/-- `newInnerProcessor`: the extension dispatch for files without the
compression wrapper. -/
def newInnerProcessor (ext : Str) : Except Str FileProc :=
  if ext = ".txt".toList ∨ ext = ".md".toList then .ok .text
  else if ext = ".pdf".toList then .ok .pdf
  else if ext = ".docx".toList then .ok .docx
  else .error ("unsupported file format: ".toList ++ ext)

/-- `NewProcessor`: resolve the outer extension; for `.gz` resolve the
inner extension from the base name with the outer extension stripped,
exactly one level deep, and wrap the inner extractor in the gzip
extractor. -/
def newProcessor (filePath : Str) : Except Str FileProc :=
  let ext := pathExt filePath
  let baseName := trimSuffix (pathBase filePath) (pathExt filePath)
  if ext = ".gz".toList then
    let innerExt := pathExt baseName
    match newInnerProcessor innerExt with
    | .error _ => .error ("unsupported inner file format: ".toList ++ innerExt)
    | .ok inner => .ok (.gzip inner)
  else newInnerProcessor ext

/-! ### The ingestion pipeline (`ProcessFiles` of the revision that
delegates to `processor.NewProcessor` and `handleError`) -/

/-- One directory entry together with the outcomes of the effectful steps
a worker performs on it: whether `os.Open` succeeds, whether the
resolved extractor `Process` call succeeds, the decoded lines the
scanner yields, and whether the scanner reports an error after them. -/
structure FileTask where
  name : Str
  isDir : Bool
  openOk : Bool
  processOk : Bool
  lines : List Str
  scanErr : Bool
deriving DecidableEq

/-- The observable state a run of `ProcessFiles` accumulates: the shared
vocabulary, the error log, the quarantine directory, and the progress
counter. -/
structure PipelineState where
  vocab : Vocabulary
  errLog : List Str
  quarantine : List Str
  processed : Nat
deriving DecidableEq

/-- The state at the start of a run. -/
def initState : PipelineState := ⟨[], [], [], 0⟩

/-- `handleError`: append one record naming the file to the error log and
copy the file into the quarantine directory (the best-effort log write
and copy are modelled as succeeding). -/
def handleError (filePath : Str) (st : PipelineState) : PipelineState :=
  { st with
    errLog := st.errLog ++ [filePath]
    quarantine := st.quarantine ++ [filePath] }

/-- The token stream one worker accumulates from its scanned lines, in
scan order: tokenize each line, optionally lower-case each token,
optionally drop punctuation-only tokens. -/
def workerTokens (E : Externals) (low filt : Bool) (lines : List Str) : List Str :=
  ((lines.flatMap E.tokenize).map
      (fun tok => if low then toLowerStr E tok else tok)).filter
    (fun tok => !(filt && isPunctuation E tok))

/-- The private `localVocab` of one worker: `localVocab[tokenText]++` per
surviving token. -/
def buildLocalVocab (E : Externals) (low filt : Bool) (lines : List Str) : Vocabulary :=
  buildFrom ((workerTokens E low filt lines).map (fun t => (t, (1 : Int))))

/-- One worker of `ProcessFiles`.  Failure at open, at processor
resolution or at extraction logs, quarantines and returns.  After a
scanner error the source logs and quarantines but does not return, so
the partially filled `localVocab` is still merged into the shared
vocabulary and the progress counter still advances.  Extension
resolution only inspects the final path element, so the directory entry
name stands for the joined path. -/
def runWorker (E : Externals) (low filt : Bool) (st : PipelineState)
    (task : FileTask) : PipelineState :=
  if !task.openOk then handleError task.name st
  else
    match newProcessor task.name with
    | .error _ => handleError task.name st
    | .ok _ =>
      if !task.processOk then handleError task.name st
      else
        let lv := buildLocalVocab E low filt task.lines
        let st1 := if task.scanErr then handleError task.name st else st
        { st1 with
          vocab := mergeInto st1.vocab lv
          processed := st1.processed + 1 }

/-- `ProcessFiles` after the directory listing succeeded: subdirectories
are skipped; every remaining entry is handed to one worker.  Merge order
into the shared vocabulary is one interleaving; the commutativity
theorem below shows the order does not affect the counts. -/
def processFiles (E : Externals) (low filt : Bool) (tasks : List FileTask) :
    PipelineState :=
  (tasks.filter (fun t => !t.isDir)).foldl (runWorker E low filt) initState

/-- A send on a Go channel with buffer `capacity` completes without a
matching receiver exactly when the buffer holds fewer than `capacity`
items.  In `ProcessFiles` the admission gate `guard` starts empty and a
worker only receives from it after its own send, so the first worker is
admitted exactly when `0 < capacity`. -/
def chanSendCompletes (capacity buffered : Nat) : Bool :=
  decide (buffered < capacity)

/-- Termination behaviour of `ProcessFiles` as a function of the
`maxGoroutines` argument: the source passes it unchanged to
`make(chan struct\x7b\x7d, maxGoroutines)`, so a negative value panics
the call, and a zero value leaves every dispatched worker blocked on
gate admission forever.  `none` models a run that panics or never
finishes; `some` returns the completed run. -/
def processFilesRun (maxGoroutines : Int) (E : Externals) (low filt : Bool)
    (tasks : List FileTask) : Option PipelineState :=
  if (tasks.filter (fun t => !t.isDir)).isEmpty then
    some (processFiles E low filt tasks)
  else if maxGoroutines < 0 then none
  else if chanSendCompletes maxGoroutines.toNat 0 then
    some (processFiles E low filt tasks)
  else none

/-- The flag handling of `main`: a non-positive `-max-goroutines` value
is replaced by `runtime.NumCPU()` before `ProcessFiles` is called. -/
def mainMaxGoroutines (flagValue numCPU : Int) : Int :=
  if flagValue ≤ 0 then numCPU else flagValue

/-! ### Companion definitions written from the words of the claims, and
concrete instantiations of the external collaborators for witnesses -/

/-- The failure condition of the `%d` scan: after skipping whitespace and
an optional sign, no digit follows, so `Sscanf` leaves `count` at `0`. -/
def noLeadingInt (s : Str) : Bool :=
  let cs := s.dropWhile (fun c => c.isWhitespace)
  let cs2 := if cs.head? == some '-' || cs.head? == some '+' then cs.tail else cs
  (cs2.takeWhile (fun c => c.isDigit)).isEmpty

/-- Companion definition following the words of claim C5: a count field
is "numeric" when it is a decimal numeral - an optional sign followed by
at least one digit and nothing else. -/
def isNumericField (s : Str) : Bool :=
  let body := if s.head? == some '-' || s.head? == some '+' then s.tail else s
  !body.isEmpty && body.all (fun c => c.isDigit)

/-- A three-letter fragment of the Unicode lower-case table: a concrete
instantiation of the abstract rune table for witnesses. -/
def demoLower (c : Char) : Char :=
  if c = 'A' then 'a' else if c = 'B' then 'b' else if c = 'C' then 'c' else c

/-- A concrete punctuation classifier for witnesses. -/
def asciiPunct (c : Char) : Bool :=
  (".,!?:;".toList).contains c

/-- A concrete stand-in for the external `segment` tokenizer in
witnesses: split a line on blanks. -/
def blankTokenize (line : Str) : List Str :=
  (splitOnChar ' ' line).filter (fun w => !w.isEmpty)

/-- A concrete instantiation of all external collaborators for
witnesses. -/
def sampleExternals : Externals :=
  ⟨demoLower, asciiPunct, fun _ => false, blankTokenize⟩

/-- Two concrete readable vocabulary files for witnesses. -/
def sampleFiles : List VFile :=
  [⟨true, "cat 3\n".toList, true⟩, ⟨true, "cat 2\ndog 1\n".toList, true⟩]

/-- A directory listing with one healthy text file and one text file
whose scanner fails after delivering one line. -/
def sampleTasksScanErr : List FileTask :=
  [⟨"a.txt".toList, false, true, true, ["hello world".toList], false⟩,
   ⟨"b.txt".toList, false, true, true, ["leak".toList], true⟩]

/-- One healthy single-file directory listing. -/
def sampleTaskOk : List FileTask :=
  [⟨"a.txt".toList, false, true, true, ["hi".toList], false⟩]

theorem getCount_addCount (v : Vocabulary) (t : Str) (c : Int) (s : Str) :
    getCount (addCount v t c) s = if s = t then getCount v s + c else getCount v s := by
  induction v with
  | nil =>
    by_cases h : s = t <;> simp_all [addCount, getCount, eq_comm]
  | cons e rest ih =>
    rcases e with ⟨k, cnt⟩
    by_cases he : k = t <;> by_cases hks : k = s <;>
      simp_all [addCount, getCount, eq_comm]

theorem getCount_setCount (v : Vocabulary) (t : Str) (c : Int) (s : Str) :
    getCount (setCount v t c) s = if s = t then c else getCount v s := by
  induction v with
  | nil =>
    by_cases h : s = t <;> simp_all [setCount, getCount, eq_comm]
  | cons e rest ih =>
    rcases e with ⟨k, cnt⟩
    by_cases he : k = t <;> by_cases hks : k = s <;>
      simp_all [setCount, getCount, eq_comm]

theorem mem_keys_addCount (v : Vocabulary) (t : Str) (c : Int) (s : Str) :
    s ∈ keys (addCount v t c) ↔ s ∈ keys v ∨ s = t := by
  induction v with
  | nil => simp [addCount, keys, eq_comm]
  | cons e rest ih =>
    rcases e with ⟨k, cnt⟩
    by_cases he : k = t <;> simp_all [addCount, keys, eq_comm] <;> tauto

theorem nodupKeys_addCount (v : Vocabulary) (t : Str) (c : Int)
    (h : NodupKeys v) : NodupKeys (addCount v t c) := by
  induction v with
  | nil => simp [addCount, NodupKeys, keys]
  | cons e rest ih =>
    rcases e with ⟨k, cnt⟩
    simp only [NodupKeys, keys, List.map_cons, List.nodup_cons] at h
    by_cases he : k = t
    · subst he
      have hrw : addCount ((k, cnt) :: rest) k c = (k, cnt + c) :: rest := by
        simp [addCount]
      rw [hrw]
      simp only [NodupKeys, keys, List.map_cons, List.nodup_cons]
      exact h
    · simp only [addCount, if_neg (by simpa using he), NodupKeys, keys, List.map_cons,
        List.nodup_cons]
      refine ⟨?_, ih h.2⟩
      intro hmem
      rcases (mem_keys_addCount rest t c k).mp hmem with hk | hk
      · exact h.1 hk
      · exact he hk

theorem sumCounts_nil (t : Str) : sumCounts [] t = 0 := rfl

theorem sumCounts_cons (e : Entry) (l : List Entry) (t : Str) :
    sumCounts (e :: l) t = (if e.1 = t then e.2 else 0) + sumCounts l t := by
  by_cases h : e.1 = t <;> simp [sumCounts, List.filter_cons, h]

theorem sumCounts_append (l₁ l₂ : List Entry) (t : Str) :
    sumCounts (l₁ ++ l₂) t = sumCounts l₁ t + sumCounts l₂ t := by
  simp [sumCounts, List.filter_append]

theorem sumCounts_perm {l₁ l₂ : List Entry} (h : l₁.Perm l₂) (t : Str) :
    sumCounts l₁ t = sumCounts l₂ t := by
  exact ((h.filter _).map _).sum_eq

theorem sumCounts_eq_zero_of_not_mem {l : List Entry} {t : Str}
    (h : t ∉ keys l) : sumCounts l t = 0 := by
  induction l with
  | nil => rfl
  | cons e rest ih =>
    simp only [keys, List.map_cons, List.mem_cons] at h
    push_neg at h
    rw [sumCounts_cons, if_neg (fun hh => h.1 hh.symm), ih h.2]
    simp

theorem sumCounts_eq_getCount {v : Vocabulary} (h : NodupKeys v) (t : Str) :
    sumCounts v t = getCount v t := by
  induction v with
  | nil => rfl
  | cons e rest ih =>
    simp only [NodupKeys, keys, List.map_cons, List.nodup_cons] at h
    rw [sumCounts_cons]
    by_cases he : e.1 = t
    · have : sumCounts rest t = 0 :=
        sumCounts_eq_zero_of_not_mem (he ▸ h.1)
      simp [getCount, he, this]
    · simp [getCount, he, ih h.2]

theorem getCount_mergeInto (src : List Entry) (dst : Vocabulary) (s : Str) :
    getCount (mergeInto dst src) s = getCount dst s + sumCounts src s := by
  induction src generalizing dst with
  | nil => simp [mergeInto, sumCounts]
  | cons e rest ih =>
    show getCount (mergeInto (addCount dst e.1 e.2) rest) s = _
    rw [ih, getCount_addCount, sumCounts_cons]
    by_cases h : s = e.1
    · rw [if_pos h, if_pos h.symm]; omega
    · rw [if_neg h, if_neg (fun hh => h hh.symm)]; omega

theorem mem_keys_mergeInto (src : List Entry) (dst : Vocabulary) (s : Str) :
    s ∈ keys (mergeInto dst src) ↔ s ∈ keys dst ∨ s ∈ keys src := by
  induction src generalizing dst with
  | nil => simp [mergeInto, keys]
  | cons e rest ih =>
    show s ∈ keys (mergeInto (addCount dst e.1 e.2) rest) ↔ _
    rw [ih, mem_keys_addCount]
    simp only [keys, List.map_cons, List.mem_cons]
    tauto

theorem nodupKeys_mergeInto (src : List Entry) (dst : Vocabulary)
    (h : NodupKeys dst) : NodupKeys (mergeInto dst src) := by
  induction src generalizing dst with
  | nil => exact h
  | cons e rest ih =>
    exact ih (addCount dst e.1 e.2) (nodupKeys_addCount dst e.1 e.2 h)

theorem getCount_buildFrom (l : List Entry) (s : Str) :
    getCount (buildFrom l) s = sumCounts l s := by
  rw [buildFrom, getCount_mergeInto]
  simp [getCount]

theorem mem_keys_buildFrom (l : List Entry) (s : Str) :
    s ∈ keys (buildFrom l) ↔ s ∈ keys l := by
  rw [buildFrom, mem_keys_mergeInto]; simp [keys]

theorem nodupKeys_buildFrom (l : List Entry) : NodupKeys (buildFrom l) :=
  nodupKeys_mergeInto l [] (by simp [NodupKeys, keys])

theorem getCount_eq_zero_of_not_mem {v : Vocabulary} {t : Str}
    (h : t ∉ keys v) : getCount v t = 0 := by
  induction v with
  | nil => rfl
  | cons e rest ih =>
    simp only [keys, List.map_cons, List.mem_cons] at h
    push_neg at h
    rw [show (getCount (e :: rest) t = if e.1 = t then e.2 else getCount rest t) from rfl,
      if_neg (fun hh => h.1 hh.symm), ih h.2]

theorem getCount_perm {l v : Vocabulary} (hv : NodupKeys v) (h : l.Perm v)
    (t : Str) : getCount l t = getCount v t := by
  have hl : NodupKeys l := by
    have := (h.map Prod.fst).nodup_iff.mpr hv
    exact this
  rw [← sumCounts_eq_getCount hl, ← sumCounts_eq_getCount hv]
  exact sumCounts_perm h t

theorem getCount_mergeAll (ps : List Vocabulary) (init : Vocabulary) (s : Str) :
    getCount (mergeAll ps init) s
      = getCount init s + (ps.map (fun v => sumCounts v s)).sum := by
  induction ps generalizing init with
  | nil => simp [mergeAll]
  | cons v rest ih =>
    show getCount (mergeAll rest (mergeInto init v)) s = _
    rw [ih, getCount_mergeInto]
    simp only [List.map_cons, List.sum_cons]
    omega

theorem nodupKeys_mergeAll (ps : List Vocabulary) (init : Vocabulary)
    (h : NodupKeys init) : NodupKeys (mergeAll ps init) := by
  induction ps generalizing init with
  | nil => exact h
  | cons v rest ih =>
    show NodupKeys (mergeAll rest (mergeInto init v))
    exact ih _ (nodupKeys_mergeInto v init h)

/-- C2 (confirmed).  Merging a finite collection of per-file partial
vocabularies into the shared vocabulary by summing counts per token
yields the same token-to-count mapping for every merge order and for
every partition of the collection into groups that are merged first and
then combined. -/
theorem c2_merge_order_and_grouping_irrelevant
    (ps qs : List Vocabulary) (groups : List (List Vocabulary))
    (hperm : ps.Perm qs) (hflat : groups.flatten.Perm ps) (t : Str) :
    getCount (mergeAll ps []) t = getCount (mergeAll qs []) t ∧
    getCount (mergeAll (groups.map (fun g => mergeAll g [])) []) t
      = getCount (mergeAll ps []) t := by
  have hsum : ∀ l : List Vocabulary,
      getCount (mergeAll l []) t = (l.map (fun v => sumCounts v t)).sum := by
    intro l
    rw [getCount_mergeAll]
    simp [getCount]
  constructor
  · rw [hsum, hsum]
    exact (hperm.map (fun v => sumCounts v t)).sum_eq
  · rw [hsum, hsum]
    have hgroup : (groups.map (fun g => mergeAll g [])).map (fun v => sumCounts v t)
        = groups.map (fun g => (g.map (fun v => sumCounts v t)).sum) := by
      rw [List.map_map]
      refine List.map_congr_left ?_
      intro g _
      have hnd : NodupKeys (mergeAll g []) :=
        nodupKeys_mergeAll g [] (by simp [NodupKeys, keys])
      simp only [Function.comp]
      rw [sumCounts_eq_getCount hnd t, hsum g]
    rw [hgroup]
    have hflatten : groups.map (fun g => (g.map (fun v => sumCounts v t)).sum)
        = (groups.map (fun g => g.map (fun v => sumCounts v t))).map List.sum := by
      rw [List.map_map]
      rfl
    rw [hflatten, ← List.sum_flatten, ← List.map_flatten]
    exact (hflat.map (fun v => sumCounts v t)).sum_eq

/-- Witness for C2 at a concrete pair of partial vocabularies, their
reversal, and the partition into two singleton groups. -/
theorem c2_witness :
    getCount (mergeAll [[(['a'], 1)], [(['a'], 2), (['b'], 3)]] []) ['a']
      = getCount (mergeAll [[(['a'], 2), (['b'], 3)], [(['a'], 1)]] []) ['a'] ∧
    getCount (mergeAll
        ([[[(['a'], 1)]], [[(['a'], 2), (['b'], 3)]]].map (fun g => mergeAll g [])) []) ['a']
      = getCount (mergeAll [[(['a'], 1)], [(['a'], 2), (['b'], 3)]] []) ['a'] :=
  c2_merge_order_and_grouping_irrelevant
    [[(['a'], 1)], [(['a'], 2), (['b'], 3)]]
    [[(['a'], 2), (['b'], 3)], [(['a'], 1)]]
    [[[(['a'], 1)]], [[(['a'], 2), (['b'], 3)]]]
    (by decide) (by decide) ['a']

/-! ### Properties of decimal rendering and scanning -/

theorem digitChar_isDigit {d : Nat} (h : d < 10) : (digitChar d).isDigit = true := by
  interval_cases d <;> decide

theorem digitChar_toNat {d : Nat} (h : d < 10) : (digitChar d).toNat = 48 + d := by
  interval_cases d <;> decide

theorem natDigits_ne_nil (n : Nat) : natDigits n ≠ [] := by
  rw [natDigits]
  split <;> simp

theorem natDigits_all_digit (n : Nat) : ∀ c ∈ natDigits n, c.isDigit = true := by
  induction n using Nat.strong_induction_on with
  | _ n ih =>
    rw [natDigits]
    split
    · next h =>
      intro c hc
      simp only [List.mem_singleton] at hc
      subst hc
      exact digitChar_isDigit h
    · next h =>
      intro c hc
      rw [List.mem_append] at hc
      rcases hc with hc | hc
      · exact ih (n / 10) (Nat.div_lt_self (by omega) (by omega)) c hc
      · simp only [List.mem_singleton] at hc
        subst hc
        exact digitChar_isDigit (Nat.mod_lt _ (by omega))

theorem digitsVal_append_digit (l : List Char) (c : Char) :
    digitsVal (l ++ [c]) = 10 * digitsVal l + (c.toNat - 48) := by
  simp [digitsVal, List.foldl_append]

theorem digitsVal_natDigits (n : Nat) : digitsVal (natDigits n) = n := by
  induction n using Nat.strong_induction_on with
  | _ n ih =>
    rw [natDigits]
    split
    · next h =>
      simp [digitsVal, digitChar_toNat h]
    · next h =>
      rw [digitsVal_append_digit, ih (n / 10) (Nat.div_lt_self (by omega) (by omega)),
        digitChar_toNat (Nat.mod_lt _ (by omega))]
      omega

theorem isDigit_not_whitespace {c : Char} (h : c.isDigit = true) :
    c.isWhitespace = false := by
  cases hw : c.isWhitespace
  · rfl
  · exfalso
    have hw2 := hw
    simp only [Char.isWhitespace, Bool.or_eq_true, decide_eq_true_eq, or_assoc] at hw2
    rcases hw2 with h1 | h1 | h1 | h1 <;> subst h1 <;> exact absurd h (by decide)

theorem isDigit_ne_signs {c : Char} (h : c.isDigit = true) :
    c ≠ '-' ∧ c ≠ '+' ∧ c ≠ ' ' ∧ c ≠ '\n' ∧ c ≠ '\r' := by
  refine ⟨?_, ?_, ?_, ?_, ?_⟩ <;> intro h1 <;> subst h1 <;> exact absurd h (by decide)

theorem natDigits_getLast_digit (n : Nat) :
    ∃ d, (natDigits n).getLast? = some d ∧ d.isDigit = true := by
  have hne := natDigits_ne_nil n
  refine ⟨(natDigits n).getLast hne, List.getLast?_eq_getLast _ hne, ?_⟩
  exact natDigits_all_digit n _ (List.getLast_mem hne)

theorem decRepr_getLast_digit (c : Int) :
    ∃ d, (decRepr c).getLast? = some d ∧ d.isDigit = true := by
  obtain ⟨d, hd, hdig⟩ := natDigits_getLast_digit c.natAbs
  rw [decRepr]
  split
  · refine ⟨d, ?_, hdig⟩
    rw [show ('-' :: natDigits c.natAbs = ['-'] ++ natDigits c.natAbs) from rfl,
      List.getLast?_append_of_ne_nil _ (natDigits_ne_nil _)]
    exact hd
  · exact ⟨d, hd, hdig⟩

theorem decRepr_chars (c : Int) :
    ∀ ch ∈ decRepr c, ch = '-' ∨ ch.isDigit = true := by
  intro ch hch
  by_cases hc : c < 0
  · rw [decRepr, if_pos hc] at hch
    rcases List.mem_cons.mp hch with h1 | h1
    · exact Or.inl h1
    · exact Or.inr (natDigits_all_digit _ _ h1)
  · rw [decRepr, if_neg hc] at hch
    exact Or.inr (natDigits_all_digit _ _ hch)

theorem space_not_mem_decRepr (c : Int) : ' ' ∉ decRepr c := by
  intro h
  rcases decRepr_chars c ' ' h with h1 | h1
  · exact absurd h1 (by decide)
  · exact absurd h1 (by decide)

theorem newline_not_mem_decRepr (c : Int) : '\n' ∉ decRepr c := by
  intro h
  rcases decRepr_chars c '\n' h with h1 | h1
  · exact absurd h1 (by decide)
  · exact absurd h1 (by decide)

theorem sscanfD_all_digits {l : List Char} (hne : l ≠ [])
    (hdig : ∀ c ∈ l, c.isDigit = true) : sscanfD l = (digitsVal l : Int) := by
  obtain ⟨d, ds, rfl⟩ : ∃ d ds, l = d :: ds := by
    cases l with
    | nil => exact absurd rfl hne
    | cons d ds => exact ⟨d, ds, rfl⟩
  have hd : d.isDigit = true := hdig d (by simp)
  have hws : d.isWhitespace = false := isDigit_not_whitespace hd
  have hne2 := isDigit_ne_signs hd
  have h1 : (some d == some '-') = false := by
    simp only [Option.some.injEq, beq_eq_false_iff_ne, ne_eq]
    exact hne2.1
  have h2 : (some d == some '+') = false := by
    simp only [Option.some.injEq, beq_eq_false_iff_ne, ne_eq]
    exact hne2.2.1
  simp only [sscanfD, List.dropWhile_cons, hws, Bool.false_eq_true, if_false,
    List.head?_cons, h1, h2, Bool.or_self, List.takeWhile_eq_self_iff.mpr hdig]
  rw [if_neg (by simp [List.isEmpty_iff])]

theorem sscanfD_minus_digits {l : List Char} (hne : l ≠ [])
    (hdig : ∀ c ∈ l, c.isDigit = true) :
    sscanfD ('-' :: l) = -(digitsVal l : Int) := by
  simp only [sscanfD, List.dropWhile_cons, show ('-').isWhitespace = false from rfl,
    Bool.false_eq_true, if_false, List.head?_cons, beq_self_eq_true, Bool.true_or,
    if_true, List.tail_cons, List.takeWhile_eq_self_iff.mpr hdig]
  rw [if_neg (by simp [List.isEmpty_iff, hne])]

theorem sscanfD_decRepr (c : Int) : sscanfD (decRepr c) = c := by
  by_cases hc : c < 0
  · rw [decRepr, if_pos hc,
      sscanfD_minus_digits (natDigits_ne_nil _) (natDigits_all_digit _),
      digitsVal_natDigits]
    omega
  · rw [decRepr, if_neg hc,
      sscanfD_all_digits (natDigits_ne_nil _) (natDigits_all_digit _),
      digitsVal_natDigits]
    omega

/-! ### Properties of field and line splitting -/

theorem splitOnChar_ne_nil (sep : Char) (s : Str) : splitOnChar sep s ≠ [] := by
  cases s with
  | nil => simp [splitOnChar]
  | cons c cs =>
    simp only [splitOnChar]
    split
    · simp
    · split <;> simp

theorem splitOnChar_of_not_mem {sep : Char} {s : Str} (h : sep ∉ s) :
    splitOnChar sep s = [s] := by
  induction s with
  | nil => rfl
  | cons c cs ih =>
    simp only [List.mem_cons] at h
    push_neg at h
    have hc : ¬ c = sep := fun hh => h.1 hh.symm
    simp only [splitOnChar, if_neg hc]
    rw [ih h.2]

theorem splitOnChar_append_sep {sep : Char} {a : Str} (rest : Str) (h : sep ∉ a) :
    splitOnChar sep (a ++ sep :: rest) = a :: splitOnChar sep rest := by
  induction a with
  | nil => simp [splitOnChar]
  | cons c cs ih =>
    simp only [List.mem_cons] at h
    push_neg at h
    have hc : ¬ c = sep := fun hh => h.1 hh.symm
    simp only [List.cons_append, splitOnChar, if_neg hc, List.append_eq]
    rw [ih h.2]

theorem splitOnChar_field_pair {tok cnt : Str} (htok : ' ' ∉ tok) (hcnt : ' ' ∉ cnt) :
    splitOnChar ' ' (tok ++ ' ' :: cnt) = [tok, cnt] := by
  rw [splitOnChar_append_sep cnt htok, splitOnChar_of_not_mem hcnt]

theorem trimTrailingEmpty_cons_cons (l p : Str) (ps : List Str) :
    trimTrailingEmpty (l :: p :: ps) = l :: trimTrailingEmpty (p :: ps) := by
  simp only [trimTrailingEmpty, List.getLast?_cons_cons]
  split
  · rw [List.dropLast_cons_of_ne_nil (by simp)]
  · rfl

theorem dropCR_eq_self {l : Str} (h : l.getLast? ≠ some '\r') : dropCR l = l := by
  simp only [dropCR]
  rw [if_neg]
  simp only [beq_iff_eq]
  exact h

theorem scanLines_flatten (ls : List Str)
    (h : ∀ l ∈ ls, ('\n' ∉ l) ∧ l.getLast? ≠ some '\r') :
    scanLines ((ls.map (fun l => l ++ ['\n'])).flatten) = ls := by
  induction ls with
  | nil => rfl
  | cons l rest ih =>
    have hl := h l (by simp)
    have hrest : ∀ x ∈ rest, ('\n' ∉ x) ∧ x.getLast? ≠ some '\r' :=
      fun x hx => h x (List.mem_cons_of_mem _ hx)
    simp only [List.map_cons, List.flatten_cons]
    rw [show (l ++ ['\n'] ++ (rest.map (fun x => x ++ ['\n'])).flatten
        = l ++ '\n' :: (rest.map (fun x => x ++ ['\n'])).flatten) from by simp]
    rw [scanLines, splitOnChar_append_sep _ hl.1]
    obtain ⟨p, ps, hps⟩ : ∃ p ps,
        splitOnChar '\n' ((rest.map (fun x => x ++ ['\n'])).flatten) = p :: ps := by
      cases hsp : splitOnChar '\n' ((rest.map (fun x => x ++ ['\n'])).flatten) with
      | nil => exact absurd hsp (splitOnChar_ne_nil _ _)
      | cons p ps => exact ⟨p, ps, rfl⟩
    rw [hps, trimTrailingEmpty_cons_cons, List.map_cons]
    rw [dropCR_eq_self hl.2]
    have ihr : scanLines ((rest.map (fun x => x ++ ['\n'])).flatten) = rest := ih hrest
    rw [scanLines, hps] at ihr
    rw [ihr]

/-! ### Properties of map assignment and loading -/

theorem mem_keys_setCount (v : Vocabulary) (t : Str) (c : Int) (s : Str) :
    s ∈ keys (setCount v t c) ↔ s ∈ keys v ∨ s = t := by
  induction v with
  | nil => simp [setCount, keys, eq_comm]
  | cons e rest ih =>
    rcases e with ⟨k, cnt⟩
    by_cases he : k = t <;> simp_all [setCount, keys, eq_comm] <;> tauto

theorem nodupKeys_setCount (v : Vocabulary) (t : Str) (c : Int)
    (h : NodupKeys v) : NodupKeys (setCount v t c) := by
  induction v with
  | nil => simp [setCount, NodupKeys, keys]
  | cons e rest ih =>
    rcases e with ⟨k, cnt⟩
    simp only [NodupKeys, keys, List.map_cons, List.nodup_cons] at h
    by_cases he : k = t
    · subst he
      have hrw : setCount ((k, cnt) :: rest) k c = (k, c) :: rest := by
        simp [setCount]
      rw [hrw]
      simp only [NodupKeys, keys, List.map_cons, List.nodup_cons]
      exact h
    · simp only [setCount, if_neg (by simpa using he), NodupKeys, keys, List.map_cons,
        List.nodup_cons]
      refine ⟨?_, ih h.2⟩
      intro hmem
      rcases (mem_keys_setCount rest t c k).mp hmem with hk | hk
      · exact h.1 hk
      · exact he hk

theorem setCount_append_of_not_mem {v : Vocabulary} {t : Str} (c : Int)
    (h : t ∉ keys v) : setCount v t c = v ++ [(t, c)] := by
  induction v with
  | nil => rfl
  | cons e rest ih =>
    simp only [keys, List.map_cons, List.mem_cons] at h
    push_neg at h
    have hc : ¬ e.1 = t := fun hh => h.1 hh.symm
    simp only [setCount, if_neg hc, List.cons_append]
    rw [ih h.2]

theorem nodupKeys_loadLine (v : Vocabulary) (l : Str) (h : NodupKeys v) :
    NodupKeys (loadLine v l) := by
  rw [loadLine]
  split
  · exact nodupKeys_setCount _ _ _ h
  · exact h

theorem nodupKeys_loadLines (ls : List Str) : NodupKeys (loadLines ls) := by
  rw [loadLines]
  have : ∀ acc : Vocabulary, NodupKeys acc → NodupKeys (ls.foldl loadLine acc) := by
    induction ls with
    | nil => exact fun acc h => h
    | cons l rest ih =>
      intro acc h
      exact ih _ (nodupKeys_loadLine acc l h)
  exact this [] (by simp [NodupKeys, keys])

theorem getCount_loadLine_other {l tok : Str} (acc : Vocabulary)
    (h : ∀ c2, splitOnChar ' ' l ≠ [tok, c2]) :
    getCount (loadLine acc l) tok = getCount acc tok := by
  rw [loadLine]
  split
  · next token cnt heq =>
    have hne : token ≠ tok := by
      intro hh
      exact h cnt (by rw [heq, hh])
    rw [getCount_setCount, if_neg (fun hh => hne hh.symm)]
  · rfl

/-! ### Rebuilding a map from its own entry list -/

theorem mergeInto_cons_of_not_mem {src : List Entry} {k : Str} (c : Int)
    (dst : Vocabulary) (h : k ∉ keys src) :
    mergeInto ((k, c) :: dst) src = (k, c) :: mergeInto dst src := by
  induction src generalizing dst with
  | nil => rfl
  | cons e rest ih =>
    simp only [keys, List.map_cons, List.mem_cons] at h
    push_neg at h
    show mergeInto (addCount ((k, c) :: dst) e.1 e.2) rest = _
    have hne : ¬ k = e.1 := h.1
    rw [show addCount ((k, c) :: dst) e.1 e.2 = (k, c) :: addCount dst e.1 e.2 from by
      simp [addCount, hne]]
    rw [ih _ h.2]
    rfl

theorem buildFrom_eq_self {l : List Entry} (h : NodupKeys l) : buildFrom l = l := by
  induction l with
  | nil => rfl
  | cons e rest ih =>
    simp only [NodupKeys, keys, List.map_cons, List.nodup_cons] at h
    show mergeInto (addCount [] e.1 e.2) rest = e :: rest
    rw [show addCount [] e.1 e.2 = [(e.1, e.2)] from rfl]
    rw [mergeInto_cons_of_not_mem e.2 [] h.1]
    rw [show mergeInto [] rest = buildFrom rest from rfl, ih h.2]

theorem sortSlice_perm (sortType : Str) (l : List Entry) :
    (sortSlice sortType l).Perm l := by
  rw [sortSlice]
  split_ifs
  · exact List.perm_insertionSort _ _
  · exact List.perm_insertionSort _ _
  · exact List.Perm.refl _

theorem nodupKeys_of_perm {l v : Vocabulary} (hv : NodupKeys v) (h : l.Perm v) :
    NodupKeys l := (h.map Prod.fst).nodup_iff.mpr hv

theorem not_mem_keys_of_nodup_append {acc : Vocabulary} {e : Entry}
    {rest : List Entry} (h : NodupKeys (acc ++ e :: rest)) : e.1 ∉ keys acc := by
  simp only [NodupKeys, keys, List.map_append, List.map_cons,
    List.nodup_append] at h
  intro hmem
  exact (h.2.2 hmem) (by simp)

theorem decRepr_ne_nil (c : Int) : decRepr c ≠ [] := by
  rw [decRepr]
  split
  · simp
  · exact natDigits_ne_nil _

theorem foldl_loadLine_entryBody (l : List Entry) (acc : Vocabulary)
    (hnd : NodupKeys (acc ++ l)) (hsp : ∀ e ∈ l, ' ' ∉ e.1) :
    (l.map entryBody).foldl loadLine acc = acc ++ l := by
  induction l generalizing acc with
  | nil => simp
  | cons e rest ih =>
    have hsp1 : ' ' ∉ e.1 := hsp e (by simp)
    have hline : loadLine acc (entryBody e) = setCount acc e.1 e.2 := by
      simp only [loadLine, entryBody]
      rw [splitOnChar_field_pair hsp1 (space_not_mem_decRepr e.2)]
      simp [sscanfD_decRepr]
    simp only [List.map_cons, List.foldl_cons, hline]
    have hnotm : e.1 ∉ keys acc := not_mem_keys_of_nodup_append hnd
    rw [setCount_append_of_not_mem e.2 hnotm]
    have hnd2 : NodupKeys ((acc ++ [e]) ++ rest) := by
      rw [List.append_assoc]
      simpa using hnd
    rw [show acc ++ [(e.1, e.2)] = acc ++ [e] from by simp]
    rw [ih (acc ++ [e]) hnd2 (fun x hx => hsp x (List.mem_cons_of_mem _ hx))]
    simp

theorem scanLines_savedContent (entries : List Entry)
    (hnl : ∀ e ∈ entries, '\n' ∉ e.1) :
    scanLines (savedContent (entries.map entryLine)) = entries.map entryBody := by
  have hmap : entries.map entryLine
      = (entries.map entryBody).map (fun l => l ++ ['\n']) := by
    rw [List.map_map]; rfl
  rw [savedContent, hmap]
  refine scanLines_flatten _ ?_
  intro l hl
  simp only [List.mem_map] at hl
  obtain ⟨e, he, rfl⟩ := hl
  constructor
  · intro hmem
    simp only [entryBody, List.mem_append, List.mem_cons] at hmem
    rcases hmem with h1 | h1 | h1
    · exact hnl e he h1
    · exact absurd h1 (by decide)
    · exact newline_not_mem_decRepr e.2 h1
  · obtain ⟨d, hd, hdig⟩ := decRepr_getLast_digit e.2
    rw [show entryBody e = (e.1 ++ [' ']) ++ decRepr e.2 from by
      simp [entryBody]]
    rw [List.getLast?_append_of_ne_nil _ (decRepr_ne_nil e.2), hd]
    intro hcontra
    have : d = '\r' := by simpa using hcontra
    subst this
    exact absurd hdig (by decide)

theorem newline_not_mem_entryBody {e : Entry} (h : '\n' ∉ e.1) :
    '\n' ∉ entryBody e := by
  intro hmem
  simp only [entryBody, List.mem_append, List.mem_cons] at hmem
  rcases hmem with h1 | h1 | h1
  · exact h h1
  · exact absurd h1 (by decide)
  · exact newline_not_mem_decRepr e.2 h1

theorem splitOnChar_flatten_newline (ls : List Str)
    (h : ∀ l ∈ ls, '\n' ∉ l) :
    splitOnChar '\n' ((ls.map (fun l => l ++ ['\n'])).flatten) = ls ++ [[]] := by
  induction ls with
  | nil => rfl
  | cons l rest ih =>
    simp only [List.map_cons, List.flatten_cons]
    rw [show l ++ ['\n'] ++ (rest.map (fun x => x ++ ['\n'])).flatten
        = l ++ '\n' :: (rest.map (fun x => x ++ ['\n'])).flatten from by simp]
    rw [splitOnChar_append_sep _ (h l (by simp)),
      ih (fun x hx => h x (List.mem_cons_of_mem _ hx))]
    rfl

theorem strBytes_append (a b : Str) :
    strBytes (a ++ b) = strBytes a + strBytes b := by
  simp [strBytes]

theorem scannerErrTooLong_savedContent (entries : List Entry)
    (hnl : ∀ e ∈ entries, '\n' ∉ e.1)
    (hfit : ∀ e ∈ entries, strBytes (entryBody e) < maxScanTokenSize) :
    scannerErrTooLong (savedContent (entries.map entryLine)) = false := by
  have hmap : entries.map entryLine
      = (entries.map entryBody).map (fun l => l ++ ['\n']) := by
    rw [List.map_map]; rfl
  rw [savedContent, hmap, scannerErrTooLong,
    splitOnChar_flatten_newline _ (fun l hl => by
      simp only [List.mem_map] at hl
      obtain ⟨e, he, rfl⟩ := hl
      exact newline_not_mem_entryBody (hnl e he))]
  rw [List.any_eq_false]
  intro x hx
  rcases List.mem_append.mp hx with hx | hx
  · simp only [List.mem_map] at hx
    obtain ⟨e, he, rfl⟩ := hx
    simp only [lineTooLong, decide_eq_true_eq]
    have := hfit e he
    omega
  · simp only [List.mem_singleton] at hx
    subst hx
    decide

/-- C3 (corrected).  For every vocabulary in which no token contains a
space or a newline AND every written line fits the 64 KiB buffer of the
default scanner `LoadVocabulary` uses, saving (with any sort order, in
particular each of the three recognized ones) and loading back yields
the same mapping: the same key set and the same count per token.  The
model represents counts as unbounded integers, so every count is
representable in the serialized decimal form; without the line-length
bound the load side stops with `bufio.ErrTooLong` (see the
counterexample). -/
theorem c3_save_load_round_trip (v : Vocabulary) (sortType : Str)
    (hnd : NodupKeys v)
    (htok : ∀ e ∈ v, (' ' ∉ e.1) ∧ ('\n' ∉ e.1))
    (hfit : ∀ e ∈ v, strBytes (entryBody e) < maxScanTokenSize) :
    ∃ lines m,
      saveVocabulary true v sortType = .ok lines ∧
      loadVocabulary ⟨true, savedContent lines, true⟩ = .ok m ∧
      (keys m).Perm (keys v) ∧ (∀ t, getCount m t = getCount v t) := by
  by_cases hst : sortType = []
  case pos =>
    refine ⟨v.map entryLine, v, ?_, ?_, List.Perm.refl _, fun t => rfl⟩
    · rw [saveVocabulary, hst]
      simp
    · rw [loadVocabulary]
      simp only [Bool.not_true, Bool.false_eq_true, if_false]
      rw [scannerErrTooLong_savedContent v (fun e he => (htok e he).2) hfit]
      simp only [Bool.not_true, Bool.or_false, Bool.false_eq_true, if_false]
      rw [scanLines_savedContent v (fun e he => (htok e he).2)]
      rw [loadLines, foldl_loadLine_entryBody v [] (by simpa using hnd)
        (fun e he => (htok e he).1)]
      simp
  case neg =>
    have hperm : (sortSlice sortType v).Perm v := sortSlice_perm sortType v
    have hnds : NodupKeys (sortSlice sortType v) := nodupKeys_of_perm hnd hperm
    refine ⟨(sortSlice sortType v).map entryLine, sortSlice sortType v, ?_, ?_,
      hperm.map Prod.fst, fun t => getCount_perm hnd hperm t⟩
    · rw [saveVocabulary]
      simp only [Bool.not_true, Bool.false_eq_true, if_false]
      rw [if_neg hst]
    · rw [loadVocabulary]
      simp only [Bool.not_true, Bool.false_eq_true, if_false]
      rw [scannerErrTooLong_savedContent _
        (fun e he => (htok e (hperm.mem_iff.mp he)).2)
        (fun e he => hfit e (hperm.mem_iff.mp he))]
      simp only [Bool.not_true, Bool.or_false, Bool.false_eq_true, if_false]
      rw [scanLines_savedContent _
        (fun e he => (htok e (hperm.mem_iff.mp he)).2)]
      rw [loadLines, foldl_loadLine_entryBody _ [] (by simpa using hnds)
        (fun e he => (htok e (hperm.mem_iff.mp he)).1)]
      simp

/-- Counterexample for C3 as stated: a vocabulary whose single token is
64 Ki copies of `a` - no space, no newline, count `1` representable -
saves fine, but loading the saved file back returns the scanner error
(`bufio.ErrTooLong`: the written line does not fit the 64 KiB buffer of
the default scanner), not the original mapping. -/
theorem c3_counterexample :
    (' ' ∉ List.replicate 65536 'a') ∧ ('\n' ∉ List.replicate 65536 'a') ∧
    saveVocabulary true [(List.replicate 65536 'a', 1)] []
      = .ok [entryLine (List.replicate 65536 'a', 1)] ∧
    loadVocabulary ⟨true,
        savedContent [entryLine (List.replicate 65536 'a', 1)], true⟩
      = .error ("error reading vocabulary file".toList) := by
  have hdec : decRepr 1 = ['1'] := by
    rw [decRepr, if_neg (by omega), show ((1 : Int).natAbs) = 1 from rfl,
      natDigits]
    simp only [Nat.one_lt_ofNat, dite_true, show (1 : Nat) < 10 from by omega,
      dite_eq_ite, if_true]
    decide
  have hbytes : strBytes (entryBody (List.replicate 65536 'a', (1 : Int)))
      = 65538 := by
    rw [show entryBody (List.replicate 65536 'a', (1 : Int))
        = List.replicate 65536 'a' ++ ' ' :: decRepr 1 from rfl]
    rw [strBytes_append, hdec,
      show strBytes (List.replicate 65536 'a') = 65536 from by
        rw [strBytes, List.map_replicate, List.sum_replicate,
          show ('a').utf8Size = 1 from rfl, smul_eq_mul, mul_one]]
    rfl
  refine ⟨?_, ?_, rfl, ?_⟩
  · intro h
    exact absurd (List.eq_of_mem_replicate h) (by decide)
  · intro h
    exact absurd (List.eq_of_mem_replicate h) (by decide)
  · have hnl : ('\n') ∉ List.replicate 65536 'a' := fun h =>
      absurd (List.eq_of_mem_replicate h) (by decide)
    have hbody : ('\n') ∉ entryBody (List.replicate 65536 'a', (1 : Int)) :=
      newline_not_mem_entryBody hnl
    have hsplit : splitOnChar '\n'
        (savedContent [entryLine (List.replicate 65536 'a', (1 : Int))])
        = [entryBody (List.replicate 65536 'a', (1 : Int)), []] := by
      rw [show savedContent [entryLine (List.replicate 65536 'a', (1 : Int))]
          = entryBody (List.replicate 65536 'a', (1 : Int))
            ++ '\n' :: ([] : Str) from by
        rw [savedContent]
        simp only [List.flatten_cons, List.flatten_nil, List.append_nil]
        rfl]
      rw [splitOnChar_append_sep _ hbody]
      rfl
    rw [loadVocabulary]
    simp only [Bool.not_true, Bool.false_eq_true, if_false]
    rw [show scannerErrTooLong
        (savedContent [entryLine (List.replicate 65536 'a', (1 : Int))])
        = true from by
      rw [scannerErrTooLong, hsplit]
      simp only [List.any_cons, List.any_nil]
      rw [show lineTooLong (entryBody (List.replicate 65536 'a', (1 : Int)))
          = true from by
        rw [lineTooLong, hbytes]
        decide]
      rfl]
    rfl

/-- Witness for C3 at a concrete two-entry vocabulary, including a
negative count, under the `freq` sort order; both written lines are far
below the scanner buffer limit. -/
theorem c3_witness :
    ∃ lines m,
      saveVocabulary true [(['a', 'b'], 3), (['c'], -2)] "freq".toList = .ok lines ∧
      loadVocabulary ⟨true, savedContent lines, true⟩ = .ok m ∧
      (keys m).Perm (keys [(['a', 'b'], 3), (['c'], -2)]) ∧
      (∀ t, getCount m t = getCount [(['a', 'b'], 3), (['c'], -2)] t) :=
  c3_save_load_round_trip [(['a', 'b'], 3), (['c'], -2)] "freq".toList
    (by decide) (by decide)
    (by
      have h3 : decRepr 3 = ['3'] := by
        rw [decRepr, if_neg (by omega), show ((3 : Int).natAbs) = 3 from rfl,
          natDigits]
        simp only [show (3 : Nat) < 10 from by omega, dite_true, dite_eq_ite,
          if_true]
        decide
      have h2 : decRepr (-2) = ['-', '2'] := by
        rw [decRepr, if_pos (by omega), show ((-2 : Int).natAbs) = 2 from rfl,
          natDigits]
        simp only [show (2 : Nat) < 10 from by omega, dite_true, dite_eq_ite,
          if_true]
        decide
      intro e he
      simp only [List.mem_cons, List.mem_singleton,
        List.not_mem_nil, or_false] at he
      rcases he with rfl | rfl
      · simp only [entryBody]
        rw [h3]
        decide
      · simp only [entryBody]
        rw [h2]
        decide)

/-- C5 (corrected).  `LoadVocabulary` errs exactly at its two error
sites - the file cannot be opened, or the scan fails (a device read
failure, or a line exceeding the 64 KiB buffer of the default scanner);
the parsed field structure of a line never causes an error: a line that
does not split on single spaces into exactly two fields is skipped and
changes nothing; a two-field line assigns the `Sscanf` `%d` value of
its second field, and that value is `0` exactly in the no-leading-digit
case (the original claim said every non-numeric field gives `0`, but a
field such as `12ab` scans to `12`). -/
theorem c5_load_tolerant (f : VFile) (v : Vocabulary) (line tok cnt : Str) :
    ((loadVocabulary f).isOk ↔
      (f.openOk = true ∧ scannerErrTooLong f.content = false ∧ f.readOk = true)) ∧
    ((splitOnChar ' ' line).length ≠ 2 → loadLine v line = v) ∧
    (' ' ∉ tok → ' ' ∉ cnt →
      loadLine v (tok ++ ' ' :: cnt) = setCount v tok (sscanfD cnt)) ∧
    (noLeadingInt cnt = true → sscanfD cnt = 0) := by
  refine ⟨?_, ?_, ?_, ?_⟩
  · rcases f with ⟨o, content, r⟩
    cases o <;> cases r <;> cases h : scannerErrTooLong content <;>
      simp [loadVocabulary, Except.isOk, Except.toBool, h]
  · intro h
    rw [loadLine]
    split
    · next token c2 heq =>
      exact absurd (by rw [heq]; rfl) h
    · rfl
  · intro htok hcnt
    rw [loadLine]
    rw [splitOnChar_field_pair htok hcnt]
  · intro h
    simp only [noLeadingInt] at h
    simp only [sscanfD]
    rw [if_pos h]

/-- Counterexample for C5 as stated: the count field `12ab` is not a
numeral, yet the loaded entry for its token carries count `12`, not `0`
- the `%d` scan accepts the maximal leading digit run. -/
theorem c5_counterexample :
    isNumericField "12ab".toList = false ∧
    getCount (loadLine [] "tok 12ab".toList) "tok".toList = 12 ∧
    (12 : Int) ≠ 0 := by decide

/-- Witness for C5 at a readable file, a three-field line, and a count
field with no leading digit. -/
theorem c5_witness :
    (loadVocabulary ⟨true, "x 1".toList, true⟩).isOk ∧
    loadLine [] "a b c".toList = [] ∧
    loadLine [] ("tok".toList ++ ' ' :: "abc".toList)
      = setCount [] "tok".toList (sscanfD "abc".toList) ∧
    sscanfD "abc".toList = 0 := by
  have h := c5_load_tolerant ⟨true, "x 1".toList, true⟩ [] "a b c".toList
    "tok".toList "abc".toList
  exact ⟨h.1.mpr ⟨rfl, by decide, rfl⟩, h.2.1 (by decide),
    h.2.2.1 (by decide) (by decide), h.2.2.2 (by decide)⟩

theorem getCount_foldl_loadLine_other {post : List Str} {tok : Str}
    (hpost : ∀ l ∈ post, ∀ c2, splitOnChar ' ' l ≠ [tok, c2]) (acc : Vocabulary) :
    getCount (post.foldl loadLine acc) tok = getCount acc tok := by
  induction post generalizing acc with
  | nil => rfl
  | cons l rest ih =>
    rw [List.foldl_cons, ih (fun x hx => hpost x (List.mem_cons_of_mem _ hx)),
      getCount_loadLine_other _ (hpost l (by simp))]

theorem mergeVocabulariesAux_ok (files : List VFile) (acc : Vocabulary)
    (h : ∀ f ∈ files, readable f = true) :
    mergeVocabulariesAux acc files
      = .ok (mergeAll (files.map (fun f => loadLines (scanLines f.content))) acc) := by
  induction files generalizing acc with
  | nil => rfl
  | cons f fs ih =>
    have hf := h f (by simp)
    simp only [readable, Bool.and_eq_true] at hf
    have htl : scannerErrTooLong f.content = false := by
      have := hf.1.2
      simpa using this
    rw [mergeVocabulariesAux]
    rw [show loadVocabulary f = .ok (loadLines (scanLines f.content)) from by
      rw [loadVocabulary, hf.1.1, htl, hf.2]
      rfl]
    show mergeVocabulariesAux (mergeInto acc (loadLines (scanLines f.content))) fs = _
    rw [ih _ (fun x hx => h x (List.mem_cons_of_mem _ hx))]
    rfl

/-- C10 (confirmed).  Within one persisted file a token that appears on
several well-formed lines ends at the count of its last such line
(assignment, not summation), while `MergeVocabularies` sums counts per
token across files. -/
theorem c10_last_line_wins_merge_sums
    (pre post : List Str) (line tok cnt : Str)
    (hline : splitOnChar ' ' line = [tok, cnt])
    (hpost : ∀ l ∈ post, ∀ c2, splitOnChar ' ' l ≠ [tok, c2])
    (files : List VFile)
    (hfiles : ∀ f ∈ files, readable f = true) :
    getCount (loadLines (pre ++ line :: post)) tok = sscanfD cnt ∧
    ∃ m, mergeVocabularies files = .ok m ∧
      ∀ t, getCount m t
        = (files.map (fun f => getCount (loadLines (scanLines f.content)) t)).sum := by
  constructor
  · rw [loadLines, List.foldl_append, List.foldl_cons]
    rw [getCount_foldl_loadLine_other hpost]
    rw [show loadLine (pre.foldl loadLine []) line
        = setCount (pre.foldl loadLine []) tok (sscanfD cnt) from by
      rw [loadLine, hline]]
    rw [getCount_setCount, if_pos rfl]
  · refine ⟨mergeAll (files.map (fun f => loadLines (scanLines f.content))) [], ?_, ?_⟩
    · rw [mergeVocabularies, mergeVocabulariesAux_ok files [] hfiles]
    · intro t
      rw [getCount_mergeAll]
      simp only [List.map_map, Function.comp]
      rw [show getCount [] t = 0 from rfl, zero_add]
      refine congrArg List.sum (List.map_congr_left ?_)
      intro f _
      exact sumCounts_eq_getCount (nodupKeys_loadLines _) t

/-- Witness for C10: the file lines `cat 3` then `cat 5` load to count
`5`, while merging two files with `cat 3` and `cat 2` sums to `5`. -/
theorem toLowerStr_idem (E : Externals)
    (hLower : ∀ c, E.lowerRune (E.lowerRune c) = E.lowerRune c) (s : Str) :
    toLowerStr E (toLowerStr E s) = toLowerStr E s := by
  simp only [toLowerStr, List.map_map]
  exact List.map_congr_left (fun c _ => by
    simp only [Function.comp_apply]
    exact hLower c)

theorem mem_keys_pv {E : Externals} {low filt : Bool} {v : Vocabulary} {k : Str}
    (h : k ∈ keys (processVocabulary E low filt v)) :
    (∃ s, k = (if low then toLowerStr E s else s)) ∧
    (filt = true → isPunctuation E k = false) := by
  rw [processVocabulary, mem_keys_buildFrom] at h
  simp only [pvEntries, keys, List.mem_map, List.mem_filter] at h
  obtain ⟨e, ⟨⟨e0, he0, rfl⟩, hpred⟩, rfl⟩ := h
  refine ⟨⟨e0.1, rfl⟩, ?_⟩
  intro hfilt
  subst hfilt
  simpa using hpred

/-- C7 (confirmed).  `ProcessVocabulary` is idempotent for every setting
of the lowercase and filter-punctuation options, given that the external
rune-level lower-case table is idempotent. -/
theorem c7_processVocabulary_idempotent (E : Externals)
    (hLower : ∀ c, E.lowerRune (E.lowerRune c) = E.lowerRune c)
    (low filt : Bool) (v : Vocabulary) :
    processVocabulary E low filt (processVocabulary E low filt v)
      = processVocabulary E low filt v := by
  have hnd : NodupKeys (processVocabulary E low filt v) := nodupKeys_buildFrom _
  have hkeys : ∀ k ∈ keys (processVocabulary E low filt v),
      (if low then toLowerStr E k else k) = k
        ∧ (filt = true → isPunctuation E k = false) := by
    intro k hk
    obtain ⟨⟨s, hs⟩, hfilt⟩ := mem_keys_pv hk
    refine ⟨?_, hfilt⟩
    cases low with
    | false => simp
    | true =>
      simp only [if_true] at hs ⊢
      rw [hs, toLowerStr_idem E hLower]
  have hentries : pvEntries E low filt (processVocabulary E low filt v)
      = processVocabulary E low filt v := by
    rw [pvEntries]
    have hmap : (processVocabulary E low filt v).map
        (fun e => (if low then toLowerStr E e.1 else e.1, e.2))
        = processVocabulary E low filt v := by
      rw [show ((processVocabulary E low filt v).map
          (fun e => (if low then toLowerStr E e.1 else e.1, e.2))
          = (processVocabulary E low filt v).map id) from
        List.map_congr_left (fun e he => by
          have := (hkeys e.1 (List.mem_map_of_mem Prod.fst he)).1
          simp only [id]
          cases low with
          | false => simp
          | true =>
            simp only [if_true] at this ⊢
            rw [this])]
      exact List.map_id _
    rw [hmap]
    refine List.filter_eq_self.mpr ?_
    intro e he
    cases filt with
    | false => simp
    | true =>
      have := (hkeys e.1 (List.mem_map_of_mem Prod.fst he)).2 rfl
      simp [this]
  rw [show processVocabulary E low filt (processVocabulary E low filt v)
      = buildFrom (pvEntries E low filt (processVocabulary E low filt v)) from rfl,
    hentries, buildFrom_eq_self hnd]

theorem demoLower_idem (c : Char) : demoLower (demoLower c) = demoLower c := by
  by_cases h1 : c = 'A'
  · subst h1; decide
  by_cases h2 : c = 'B'
  · subst h2; decide
  by_cases h3 : c = 'C'
  · subst h3; decide
  simp [demoLower, h1, h2, h3]

/-- Witness for C7: the sample collaborators with both options on, at a
vocabulary with a mixed-case key and a punctuation key. -/
theorem c7_witness :
    processVocabulary sampleExternals true true
        (processVocabulary sampleExternals true true
          [("Ab".toList, 2), ("!?".toList, 3)])
      = processVocabulary sampleExternals true true
          [("Ab".toList, 2), ("!?".toList, 3)] :=
  c7_processVocabulary_idempotent sampleExternals demoLower_idem true true
    [("Ab".toList, 2), ("!?".toList, 3)]

theorem sumCounts_filter_of {l : List Entry} {t : Str} {p : Entry → Bool}
    (h : ∀ e ∈ l, e.1 = t → p e = true) :
    sumCounts (l.filter p) t = sumCounts l t := by
  induction l with
  | nil => rfl
  | cons e rest ih =>
    rw [List.filter_cons]
    by_cases he : e.1 = t
    · rw [if_pos (h e (by simp) he), sumCounts_cons, sumCounts_cons,
        ih (fun x hx hxt => h x (List.mem_cons_of_mem _ hx) hxt)]
    · by_cases hp : p e = true
      · rw [if_pos hp, sumCounts_cons, sumCounts_cons, if_neg he,
          ih (fun x hx hxt => h x (List.mem_cons_of_mem _ hx) hxt)]
      · rw [if_neg hp, sumCounts_cons, if_neg he,
          ih (fun x hx hxt => h x (List.mem_cons_of_mem _ hx) hxt)]
        omega

theorem mem_keys_buildLocalVocab {E : Externals} {low filt : Bool}
    {lines : List Str} {k : Str}
    (h : k ∈ keys (buildLocalVocab E low filt lines)) :
    k ∈ workerTokens E low filt lines := by
  rw [buildLocalVocab, mem_keys_buildFrom] at h
  simp only [keys, List.map_map] at h
  simpa using h

/-- C9 (confirmed).  With the punctuation filter on, a token all of
whose runes classify as punctuation or symbol never appears in the
vocabulary produced by normalization or by an ingestion worker, and a
token with at least one other rune keeps its count under normalization
(stated with the case fold off, which is the setting that isolates the
filter). -/
theorem c9_punctuation_filter (E : Externals) (low : Bool) (v : Vocabulary)
    (lines : List Str) (t : Str) :
    (isPunctuation E t = true →
      t ∉ keys (processVocabulary E low true v) ∧
      t ∉ keys (buildLocalVocab E low true lines)) ∧
    (NodupKeys v → isPunctuation E t = false →
      getCount (processVocabulary E false true v) t = getCount v t) := by
  constructor
  · intro hpunct
    constructor
    · intro hmem
      have := (mem_keys_pv hmem).2 rfl
      rw [hpunct] at this
      exact absurd this (by decide)
    · intro hmem
      have := mem_keys_buildLocalVocab hmem
      simp only [workerTokens, List.mem_filter] at this
      rw [hpunct] at this
      simpa using this.2
  · intro hnd hpunct
    rw [processVocabulary, getCount_buildFrom, pvEntries]
    simp only [if_neg (Bool.false_ne_true), Prod.mk.eta]
    rw [show (v.map (fun e => (e.1, e.2)) = v) from by simp]
    rw [sumCounts_filter_of (fun e _ het => by
      rw [het, hpunct]
      simp)]
    exact sumCounts_eq_getCount hnd t

/-- Witness for C9: the punctuation-only token `!?` is absent and the
mixed token `ab!` keeps its count `2`. -/
theorem c9_witness :
    ("!?".toList ∉ keys (processVocabulary sampleExternals false true
        [("ab!".toList, 2), ("!?".toList, 3)]) ∧
      "!?".toList ∉ keys (buildLocalVocab sampleExternals false true
        ["ab! !?".toList])) ∧
    getCount (processVocabulary sampleExternals false true
        [("ab!".toList, 2), ("!?".toList, 3)]) "ab!".toList
      = getCount [("ab!".toList, 2), ("!?".toList, 3)] "ab!".toList := by
  have h := c9_punctuation_filter sampleExternals false
    [("ab!".toList, 2), ("!?".toList, 3)] ["ab! !?".toList] "!?".toList
  have h2 := c9_punctuation_filter sampleExternals false
    [("ab!".toList, 2), ("!?".toList, 3)] ["ab! !?".toList] "ab!".toList
  exact ⟨h.1 (by decide), h2.2 (by decide) (by decide)⟩

theorem c10_witness :
    getCount (loadLines (["cat 3".toList] ++ "cat 5".toList :: [])) "cat".toList
      = sscanfD "5".toList ∧
    ∃ m, mergeVocabularies sampleFiles = .ok m ∧
      ∀ t, getCount m t
        = (sampleFiles.map
            (fun f => getCount (loadLines (scanLines f.content)) t)).sum :=
  c10_last_line_wins_merge_sums ["cat 3".toList] [] "cat 5".toList "cat".toList
    "5".toList (by decide) (by simp) sampleFiles (by decide)

/-- C6 (confirmed).  `NewProcessor` maps `.txt` and `.md` to the text
extractor, `.pdf` to the PDF extractor, `.docx` to the DOCX extractor;
for `.gz` it resolves the inner extension from the base name with the
outer extension stripped, exactly one level deep, wrapping the inner
extractor in the gzip extractor or failing with an unsupported-format
error carrying the inner extension; every other extension fails with an
unsupported-format error carrying that extension.  The model is a pure
function, so resolution has no side effects. -/
theorem c6_format_resolver (p : Str) :
    ((pathExt p = ".txt".toList ∨ pathExt p = ".md".toList) →
      newProcessor p = .ok .text) ∧
    (pathExt p = ".pdf".toList → newProcessor p = .ok .pdf) ∧
    (pathExt p = ".docx".toList → newProcessor p = .ok .docx) ∧
    (pathExt p = ".gz".toList →
      (∀ inner, newInnerProcessor (pathExt (trimSuffix (pathBase p) (pathExt p)))
          = .ok inner → newProcessor p = .ok (.gzip inner)) ∧
      (∀ e, newInnerProcessor (pathExt (trimSuffix (pathBase p) (pathExt p)))
          = .error e →
        newProcessor p = .error ("unsupported inner file format: ".toList
          ++ pathExt (trimSuffix (pathBase p) (pathExt p))))) ∧
    ((pathExt p ≠ ".txt".toList ∧ pathExt p ≠ ".md".toList ∧
      pathExt p ≠ ".pdf".toList ∧ pathExt p ≠ ".docx".toList ∧
      pathExt p ≠ ".gz".toList) →
      newProcessor p = .error ("unsupported file format: ".toList ++ pathExt p)) := by
  refine ⟨?_, ?_, ?_, ?_, ?_⟩
  · intro h
    rcases h with h | h <;>
    · simp only [newProcessor]
      rw [h, if_neg (by decide)]
      rfl
  · intro h
    simp only [newProcessor]
    rw [h, if_neg (by decide)]
    rfl
  · intro h
    simp only [newProcessor]
    rw [h, if_neg (by decide)]
    rfl
  · intro h
    constructor
    · intro inner hinner
      simp only [newProcessor]
      rw [h] at hinner ⊢
      rw [if_pos rfl, hinner]
    · intro e he
      simp only [newProcessor]
      rw [h] at he ⊢
      rw [if_pos rfl, he]
  · intro h
    obtain ⟨h1, h2, h3, h4, h5⟩ := h
    simp only [newProcessor]
    rw [if_neg h5, newInnerProcessor, if_neg (by tauto), if_neg h3, if_neg h4]

/-- Witness for C6 at four concrete paths: a text file, a compressed
markdown file, a doubly compressed file (rejected one level deep), and
an unsupported extension. -/
theorem c6_witness :
    newProcessor "doc.txt".toList = .ok .text ∧
    newProcessor "arch.md.gz".toList = .ok (.gzip .text) ∧
    newProcessor "x.tar.gz.gz".toList
      = .error ("unsupported inner file format: .gz".toList) ∧
    newProcessor "prog.exe".toList
      = .error ("unsupported file format: .exe".toList) := by
  refine ⟨?_, ?_, ?_, ?_⟩
  · exact (c6_format_resolver "doc.txt".toList).1 (Or.inl (by decide))
  · exact ((c6_format_resolver "arch.md.gz".toList).2.2.2.1 (by decide)).1
      FileProc.text rfl
  · exact ((c6_format_resolver "x.tar.gz.gz".toList).2.2.2.1 (by decide)).2
      ("unsupported file format: .gz".toList) rfl
  · exact (c6_format_resolver "prog.exe".toList).2.2.2.2
      (by refine ⟨?_, ?_, ?_, ?_, ?_⟩ <;> decide)

/-- C8 (confirmed).  `SaveVocabulary` fails exactly when the output file
cannot be created; on success it writes one `token count` line with a
trailing newline per entry: with empty `sortType` in iteration order,
with `freq` in non-increasing order of count, with `alpha` in ascending
code-point lexicographic order of token. -/
theorem c8_serializer_order_and_failure (v : Vocabulary) (sortType : Str) :
    saveVocabulary false v sortType = .error ("error creating file".toList) ∧
    ∃ entries,
      saveVocabulary true v sortType = .ok (entries.map entryLine) ∧
      entries.Perm v ∧
      (sortType = "freq".toList → entries.Pairwise rFreq) ∧
      (sortType = "alpha".toList → entries.Pairwise rAlpha) ∧
      (sortType = [] → entries = v) := by
  constructor
  · rfl
  · by_cases hst : sortType = []
    · subst hst
      refine ⟨v, ?_, List.Perm.refl _, ?_, ?_, fun _ => rfl⟩
      · rfl
      · intro h
        exact absurd h (by decide)
      · intro h
        exact absurd h (by decide)
    · refine ⟨sortSlice sortType v, ?_, sortSlice_perm _ _, ?_, ?_,
        fun h => absurd h hst⟩
      · rw [saveVocabulary]
        simp only [Bool.not_true, Bool.false_eq_true, if_false]
        rw [if_neg hst]
      · intro h
        subst h
        rw [sortSlice, if_pos rfl]
        exact List.sorted_insertionSort rFreq v
      · intro h
        subst h
        rw [sortSlice, if_neg (by decide), if_pos rfl]
        exact List.sorted_insertionSort rAlpha v

/-- Witness for C8 under the `alpha` sort order at a two-entry
vocabulary. -/
theorem c8_witness :
    ∃ entries : List Entry,
      saveVocabulary true [("b".toList, 1), ("a".toList, 5)] "alpha".toList
        = .ok (entries.map entryLine) ∧
      entries.Perm [("b".toList, 1), ("a".toList, 5)] ∧
      entries.Pairwise rAlpha := by
  obtain ⟨e1, h1, h2, h3, h4, h5⟩ :=
    (c8_serializer_order_and_failure [("b".toList, 1), ("a".toList, 5)]
      "alpha".toList).2
  exact ⟨e1, h1, h2, h4 rfl⟩

/-- C1 (code bug in the cited revision).  Evaluation of the pipeline on
a directory with one healthy file and one file that fails at the scan
stage after its scanner delivered one line: the run completes, exactly
one error is logged and exactly one file is quarantined, but the token
`leak` that the failed worker had accumulated before the scanner error
is merged into the shared vocabulary and the progress counter advances
for the failed file as well - the scan-error branch of the cited
`ProcessFiles` revision logs and quarantines but does not return before
the merge, while the two neighbouring revisions of the same function in
the repository do return there. -/
theorem c1_scan_error_contributes_to_vocabulary :
    getCount (processFiles sampleExternals false false sampleTasksScanErr).vocab
      "leak".toList = 1 ∧
    getCount (processFiles sampleExternals false false sampleTasksScanErr).vocab
      "hello".toList = 1 ∧
    getCount (processFiles sampleExternals false false sampleTasksScanErr).vocab
      "world".toList = 1 ∧
    (processFiles sampleExternals false false sampleTasksScanErr).errLog
      = ["b.txt".toList] ∧
    (processFiles sampleExternals false false sampleTasksScanErr).quarantine
      = ["b.txt".toList] ∧
    (processFiles sampleExternals false false sampleTasksScanErr).processed = 2 := by
  decide

/-- Counterexample for C4 as stated: a direct call to `ProcessFiles`
with the non-positive limit `0` on a one-file directory does not default
the limit and never finishes - the admission gate of capacity `0` never
admits the worker - instead of processing the file and terminating. -/
theorem c4_counterexample :
    (0 : Int) ≤ 0 ∧
    processFilesRun 0 sampleExternals false false sampleTaskOk = none := by
  decide

/-- C4 (corrected).  The defaulting of a non-positive concurrency limit
to the host parallelism happens in the command-line entry point, not
inside `ProcessFiles`: `main` replaces a non-positive flag value by
`runtime.NumCPU()` before calling `ProcessFiles`, and with the resulting
positive limit the pipeline processes every listed file and
terminates. -/
theorem c4_nonpositive_limit_defaulted_by_main
    (flagValue numCPU : Int) (E : Externals) (low filt : Bool)
    (tasks : List FileTask) (hflag : flagValue ≤ 0) (hcpu : 1 ≤ numCPU) :
    mainMaxGoroutines flagValue numCPU = numCPU ∧
    processFilesRun (mainMaxGoroutines flagValue numCPU) E low filt tasks
      = some (processFiles E low filt tasks) := by
  have hmg : mainMaxGoroutines flagValue numCPU = numCPU := by
    rw [mainMaxGoroutines, if_pos hflag]
  refine ⟨hmg, ?_⟩
  rw [hmg, processFilesRun]
  by_cases hempty : (tasks.filter (fun t => !t.isDir)).isEmpty
  · rw [if_pos hempty]
  · rw [if_neg hempty, if_neg (by omega), if_pos (show
      chanSendCompletes numCPU.toNat 0 = true by
        simp only [chanSendCompletes, decide_eq_true_eq]
        omega)]

/-- Witness for C4 at flag value `-2` on a four-processor host with a
one-file directory. -/
theorem c4_witness :
    mainMaxGoroutines (-2) 4 = 4 ∧
    processFilesRun (mainMaxGoroutines (-2) 4) sampleExternals false false
        sampleTaskOk
      = some (processFiles sampleExternals false false sampleTaskOk) :=
  c4_nonpositive_limit_defaulted_by_main (-2) 4 sampleExternals false false
    sampleTaskOk (by decide) (by decide)

end Vocab
